import Mathlib

/-!
Verification of the branching history-evaluation engine of `go-evals`.

The definitions below are a shallow embedding of the Go sources:

* `History`, `TimelineOf`, `ArrowOf`, `AppendEvent`, `Restart`, `WalkForward`,
  `WalkBackward` embed `history/history.go` (and the method variants of
  `history/emulate.go`); Go slices become Lean lists, the unsigned `arrow`
  becomes a `Nat`, and the pointer-receiver walkers become explicit
  state-passing functions returning the updated `History`.
* Go `error` values become the inductive `GoErr`; a `nil` error is `none` of
  `Option GoErr`, sentinel errors are dedicated constructors compared by
  identity, and `fmt.Errorf("...: %w", err)` becomes `GoErr.wrap`.
* The `Subject[E]` interface of `history/subject.go` becomes a record of four
  functions over an explicit state type `σ`; the mutation performed by
  `ApplyEvent` becomes returning the new state.
* The evaluator of `history/evaluator.go` (`pop`, `push`, `applyOnce`,
  `apply`, `execute`, `AsSeq`, `Execute`) is embedded with an explicit fuel
  argument for the two unbounded Go loops; running out of fuel yields `none`,
  so every `some` result of the model is a faithful trace of the Go run.
* The queue-based revision (`Evaluate`, `executeUntil`, `realign`,
  `pushPaths`, `internal.Queue`) is embedded separately.
* The `Accumulator` of `result/accumulator.go` is embedded as a record.
-/

/-- Go `error` values. `nil` errors are modelled as `none : Option GoErr`.
Sentinel errors (`ErrEOT`, `ErrBreak`, `common.ErrNilReceiver`,
`internal.ErrEmptyQueue`) get their own constructors so that the Go identity
comparisons (`err == ErrBreak`) are faithful; `fmt.Errorf` wrapping is the
`wrap` constructor; all other errors carry their message. -/
inductive GoErr where
  | eot : GoErr
  | nilReceiver : GoErr
  | breakSentinel : GoErr
  | emptyQueue : GoErr
  | nilParam : String → GoErr
  | msg : String → GoErr
  | wrap : String → GoErr → GoErr
deriving DecidableEq, Repr

/-- `History` from `history/history.go`: an event timeline plus a read
cursor. The Go `uint` arrow is a `Nat`. -/
structure History (E : Type) where
  timeline : List E
  arrow : Nat
deriving DecidableEq, Repr

instance {E : Type} : Inhabited (History E) := ⟨⟨[], 0⟩⟩

/-- `TimelineOf` from `history/history.go`: returns (a copy of) the timeline. -/
def TimelineOf {E : Type} (h : History E) : List E :=
  h.timeline

/-- `ArrowOf` from `history/history.go`. -/
def ArrowOf {E : Type} (h : History E) : Nat :=
  h.arrow

/-- `AppendEvent` from `history/history.go`: a new `History` whose timeline is
the old one with `event` appended, same arrow. The defensive copy of the Go
slice is the pure list append here; the aliasing content of that copy is
modelled separately by `appendEventRef` below. -/
def AppendEvent {E : Type} (h : History E) (event : E) : History E :=
  { timeline := h.timeline ++ [event], arrow := h.arrow }

/-- `Restart` from `history/history.go`: arrow reset to `0`, timeline kept. -/
def Restart {E : Type} (h : History E) : History E :=
  { timeline := h.timeline, arrow := 0 }

/-- `WalkForward` from `history/history.go`: when `arrow ≥ len(timeline)` it
fails with `ErrEOT` leaving the history unchanged, otherwise it returns
`timeline[arrow]` and advances the arrow by one. The Go bounds check
`h.arrow >= uint(len(h.timeline))` is exactly the `none` case of the safe
index `h.timeline[h.arrow]?`. -/
def WalkForward {E : Type} (h : History E) : Except GoErr E × History E :=
  match h.timeline[h.arrow]? with
  | none => (Except.error GoErr.eot, h)
  | some event => (Except.ok event, { timeline := h.timeline, arrow := h.arrow + 1 })

/-- `WalkBackward` from `history/history.go`: when `arrow = 0` it fails with
`ErrEOT`, otherwise it decrements the arrow and returns the event there. The
out-of-range index (only reachable when `arrow > len(timeline)`, which the
invariant rules out) is a Go panic; it is modelled as an error value. -/
def WalkBackward {E : Type} (h : History E) : Except GoErr E × History E :=
  if h.arrow = 0 then
    (Except.error GoErr.eot, h)
  else
    match h.timeline[h.arrow - 1]? with
    | some event => (Except.ok event, { timeline := h.timeline, arrow := h.arrow - 1 })
    | none => (Except.error (GoErr.msg "index out of range"), { timeline := h.timeline, arrow := h.arrow - 1 })

/-- Histories reachable from the zero-valued `History` by the four public
operations of `history/history.go`. -/
inductive ReachableHistory {E : Type} : History E → Prop where
  | empty : ReachableHistory { timeline := [], arrow := 0 }
  | append (h : History E) (e : E) : ReachableHistory h → ReachableHistory (AppendEvent h e)
  | walkF (h : History E) : ReachableHistory h → ReachableHistory (WalkForward h).2
  | walkB (h : History E) : ReachableHistory h → ReachableHistory (WalkBackward h).2
  | restart (h : History E) : ReachableHistory h → ReachableHistory (Restart h)

/-- The `History` invariant of the spec: `0 ≤ arrow ≤ len(timeline)`
(the lower bound is inherent to `Nat`). -/
def HistoryInv {E : Type} (h : History E) : Prop :=
  h.arrow ≤ h.timeline.length

lemma historyInv_appendEvent {E : Type} (h : History E) (e : E)
    (hi : HistoryInv h) : HistoryInv (AppendEvent h e) := by
  unfold HistoryInv AppendEvent at *
  simp only [List.length_append, List.length_cons, List.length_nil]
  omega

lemma historyInv_walkForward {E : Type} (h : History E)
    (hi : HistoryInv h) : HistoryInv (WalkForward h).2 := by
  unfold HistoryInv WalkForward at *
  rcases hlt : h.timeline[h.arrow]? with _ | e
  · simpa using hi
  · obtain ⟨hlt2, -⟩ := List.getElem?_eq_some_iff.mp hlt
    simp only []
    omega

lemma historyInv_walkBackward {E : Type} (h : History E)
    (hi : HistoryInv h) : HistoryInv (WalkBackward h).2 := by
  unfold HistoryInv WalkBackward at *
  by_cases h0 : h.arrow = 0
  · simp [h0]
  · rcases hlt : h.timeline[h.arrow - 1]? with _ | e <;> simp [h0, hlt] <;> omega

lemma historyInv_restart {E : Type} (h : History E) : HistoryInv (Restart h) := by
  unfold HistoryInv Restart
  simp

/-- C9: every reachable `History` satisfies `arrow ≤ len(timeline)`, and each
of `AppendEvent`, `WalkForward`, `WalkBackward`, `Restart` preserves the
invariant. -/
theorem reachableHistory_invariant {E : Type} :
    (∀ h : History E, ReachableHistory h → HistoryInv h) ∧
    (∀ (h : History E) (e : E), HistoryInv h → HistoryInv (AppendEvent h e)) ∧
    (∀ h : History E, HistoryInv h → HistoryInv (WalkForward h).2) ∧
    (∀ h : History E, HistoryInv h → HistoryInv (WalkBackward h).2) ∧
    (∀ h : History E, HistoryInv h → HistoryInv (Restart h)) := by
  refine ⟨?_, historyInv_appendEvent, historyInv_walkForward, historyInv_walkBackward,
    fun h _ => historyInv_restart h⟩
  intro h hr
  induction hr with
  | empty => simp [HistoryInv]
  | append h e _ ih => exact historyInv_appendEvent h e ih
  | walkF h _ ih => exact historyInv_walkForward h ih
  | walkB h _ ih => exact historyInv_walkBackward h ih
  | restart h _ _ => exact historyInv_restart h

/-- Witness for C9: the invariant holds on a concrete reachable history
(two appends followed by a forward walk), via the claim theorem. -/
theorem reachableHistory_invariant_witness :
    HistoryInv (WalkForward (AppendEvent (AppendEvent (⟨[], 0⟩ : History Nat) 3) 4)).2 :=
  (reachableHistory_invariant (E := Nat)).1 _
    (ReachableHistory.walkF _
      (ReachableHistory.append _ 4 (ReachableHistory.append _ 3 ReachableHistory.empty)))

/-- C7: under the invariant `arrow ≤ len(timeline)`, `WalkForward` fails with
the `ErrEOT` sentinel iff `arrow = len(timeline)` (leaving the history
unchanged); otherwise it returns `timeline[arrow]` and advances the arrow by
exactly one with the timeline untouched. -/
theorem walkForward_spec {E : Type} (h : History E)
    (hinv : h.arrow ≤ h.timeline.length) :
    ((WalkForward h).1 = Except.error GoErr.eot ↔ h.arrow = h.timeline.length) ∧
    ((WalkForward h).1 = Except.error GoErr.eot → (WalkForward h).2 = h) ∧
    (∀ e : E, (WalkForward h).1 = Except.ok e →
      h.timeline[h.arrow]? = some e ∧
      (WalkForward h).2.arrow = h.arrow + 1 ∧
      (WalkForward h).2.timeline = h.timeline) := by
  unfold WalkForward
  rcases hlt : h.timeline[h.arrow]? with _ | e
  · have := List.getElem?_eq_none_iff.mp hlt
    refine ⟨⟨fun _ => by omega, fun _ => rfl⟩, fun _ => rfl, fun e he => by simp at he⟩
  · obtain ⟨hlt2, -⟩ := List.getElem?_eq_some_iff.mp hlt
    refine ⟨⟨fun hc => by simp at hc, fun hc => by omega⟩, fun hc => by simp at hc, ?_⟩
    intro e' he'
    simp only [Except.ok.injEq] at he'
    subst he'
    exact ⟨rfl, rfl, rfl⟩

/-- Witness for C7 at a concrete history: `⟨[5, 7], 1⟩` walks to `7`. -/
theorem walkForward_spec_witness :
    ((WalkForward (⟨[5, 7], 1⟩ : History Nat)).1 = Except.error GoErr.eot ↔ (1 : Nat) = 2) ∧
    ((WalkForward (⟨[5, 7], 1⟩ : History Nat)).1 = Except.error GoErr.eot →
      (WalkForward (⟨[5, 7], 1⟩ : History Nat)).2 = ⟨[5, 7], 1⟩) ∧
    (∀ e : Nat, (WalkForward (⟨[5, 7], 1⟩ : History Nat)).1 = Except.ok e →
      ([5, 7] : List Nat)[1]? = some e ∧
      (WalkForward (⟨[5, 7], 1⟩ : History Nat)).2.arrow = 2 ∧
      (WalkForward (⟨[5, 7], 1⟩ : History Nat)).2.timeline = [5, 7]) :=
  walkForward_spec (⟨[5, 7], 1⟩ : History Nat) (by decide)

/-- A heap of Go slice backing arrays, for the aliasing content of
`AppendEvent`: array identifiers below `next` are allocated. -/
structure GoStore (E : Type) where
  arrays : Nat → List E
  next : Nat

/-- A `History` whose timeline is a reference into a `GoStore`, as in the Go
struct where `timeline []E` is a slice header sharing a backing array. -/
structure HistRef where
  tl : Nat
  arrow : Nat
deriving DecidableEq, Repr

/-- Reading the timeline of a store-level history. -/
def readTimeline {E : Type} (st : GoStore E) (h : HistRef) : List E :=
  st.arrays h.tl

/-- `AppendEvent` from `history/history.go` at the slice-aliasing level: it
makes a fresh backing array (`make` + `copy` + `append`), so the result
references a new allocation and every existing history is untouched. -/
def appendEventRef {E : Type} (st : GoStore E) (h : HistRef) (event : E) :
    GoStore E × HistRef :=
  let fresh := st.arrays h.tl ++ [event]
  ({ arrays := fun i => if i = st.next then fresh else st.arrays i, next := st.next + 1 },
   { tl := st.next, arrow := h.arrow })

/-- C8: `AppendEvent` returns a history whose timeline is the old one with
the event appended and the same arrow, and it mutates no existing history:
every history allocated in the store (in particular `h1` itself) reads the
same timeline before and after the call. -/
theorem appendEvent_spec {E : Type} (st : GoStore E) (h1 : HistRef) (event : E)
    (hwf : h1.tl < st.next) :
    readTimeline (appendEventRef st h1 event).1 (appendEventRef st h1 event).2 =
      readTimeline st h1 ++ [event] ∧
    (appendEventRef st h1 event).2.arrow = h1.arrow ∧
    readTimeline (appendEventRef st h1 event).1 h1 = readTimeline st h1 ∧
    (∀ g : HistRef, g.tl < st.next →
      readTimeline (appendEventRef st h1 event).1 g = readTimeline st g) := by
  refine ⟨by simp [appendEventRef, readTimeline], rfl, ?_, ?_⟩
  · simp only [appendEventRef, readTimeline]
    rw [if_neg (by omega)]
  · intro g hg
    simp only [appendEventRef, readTimeline]
    rw [if_neg (by omega)]

/-- Witness for C8 on a concrete two-array store. -/
theorem appendEvent_spec_witness :
    readTimeline (appendEventRef (GoStore.mk (fun i => if i = 0 then [1, 2] else []) 1) ⟨0, 1⟩ 9).1
        (appendEventRef (GoStore.mk (fun i => if i = 0 then ([1, 2] : List Nat) else []) 1) ⟨0, 1⟩ 9).2 =
      [1, 2] ++ [9] ∧
    (appendEventRef (GoStore.mk (fun i => if i = 0 then ([1, 2] : List Nat) else []) 1) ⟨0, 1⟩ 9).2.arrow = 1 ∧
    readTimeline (appendEventRef (GoStore.mk (fun i => if i = 0 then ([1, 2] : List Nat) else []) 1) ⟨0, 1⟩ 9).1 ⟨0, 1⟩ = [1, 2] ∧
    (∀ g : HistRef, g.tl < 1 →
      readTimeline (appendEventRef (GoStore.mk (fun i => if i = 0 then ([1, 2] : List Nat) else []) 1) ⟨0, 1⟩ 9).1 g =
        readTimeline (GoStore.mk (fun i => if i = 0 then ([1, 2] : List Nat) else []) 1) g) := by
  have h := appendEvent_spec (GoStore.mk (fun i => if i = 0 then ([1, 2] : List Nat) else []) 1)
    ⟨0, 1⟩ 9 (by decide)
  simpa [readTimeline] using h

/-- The `Subject[E]` interface of `history/subject.go` over an explicit state
type `σ`: `ApplyEvent` mutates the state and may return a fatal error,
`NextEvents` lists the applicable events (empty = terminal) and may fail
fatally, `HasError` reports the soft per-path failure flag, and `GetError`
builds the soft error. -/
structure Subject (σ E : Type) where
  ApplyEvent : σ → E → σ × Option GoErr
  NextEvents : σ → List E × Option GoErr
  HasError : σ → Bool
  GetError : σ → GoErr

/-- `Result` from the history package: final timeline, the subject reached
(`none` models a Go nil Subject), and the optional fatal error. -/
structure Result (σ E : Type) where
  Timeline : List E
  Subject : Option σ
  Error : Option GoErr
deriving DecidableEq, Repr

/-- `NewResult`: the Timeline is (a copy of) the history's timeline. -/
def NewResult {σ E : Type} (h : History E) (s : Option σ) (err : Option GoErr) :
    Result σ E :=
  { Timeline := TimelineOf h, Subject := s, Error := err }

/-- The `Evaluator` struct of `history/evaluator.go`: the subject behaviour
reachable through `initFn` plus the outcome of calling `initFn` (a fresh
state or an error); its `paths` stack starts empty and is local to `apply`. -/
structure Evaluator (σ E : Type) where
  sub : Subject σ E
  initFn : Except GoErr σ

/-- `pop` from `history/evaluator.go`: removes and returns the TOP of the
`paths` stack, i.e. the LAST element of the slice. -/
def Evaluator.pop {E : Type} (paths : List (History E)) :
    Option (History E × List (History E)) :=
  match paths.getLast? with
  | none => none
  | some h => some (h, paths.dropLast)

/-- `push` from `history/evaluator.go`: reverses `elems` in place and appends
the result to the `paths` slice (no-op on an empty `elems`). -/
def Evaluator.push {E : Type} (paths : List (History E)) (elems : List (History E)) :
    List (History E) :=
  if elems.isEmpty then paths else paths ++ elems.reverse

/-- Modelled from the spec: `nextEvents` (called by `applyOnce` in
`history/evaluator.go` but missing from the sources) asks the subject for its
next events and builds one candidate history per event by appending it to the
current history (§4.3 step 5). Per §4.3 step 5 and §4.4, a subject already in
a soft-error state offers no further candidates: its path stops stepping and
is classified invalid. -/
def nextEvents {σ E : Type} (sub : Subject σ E) (s : σ) (h : History E) :
    List (History E) × Option GoErr :=
  if sub.HasError s then ([], none)
  else
    match sub.NextEvents s with
    | (_, some e) => ([], some e)
    | (events, none) => (events.map (fun ev => AppendEvent h ev), none)

/-- Modelled from the spec: `walkOnce` (called by `applyOnce` but missing
from the sources) advances the chosen history by one recorded event
(`WalkForward`) and applies that event to the subject (§4.3 step 5). -/
def walkOnce {σ E : Type} (sub : Subject σ E) (s : σ) (h : History E) :
    History E × σ × Option GoErr :=
  match WalkForward h with
  | (Except.error e, h2) => (h2, s, some e)
  | (Except.ok ev, h2) =>
    match sub.ApplyEvent s ev with
    | (s2, err) => (h2, s2, err)

/-- Modelled from the spec: `align` (called by `apply` but missing from the
sources) replays the dequeued history into the fresh subject from its current
position (§4.3 step 4, "Realign"): each recorded event is applied in order; a
fatal `ApplyEvent` error is returned and aborts the run, while a soft error
discovered mid-replay stops the replay, leaving the path to be classified
invalid. The recursion is bounded by the number of unread events. -/
def alignAux {σ E : Type} (sub : Subject σ E) :
    Nat → σ → History E → History E × σ × Option GoErr
  | 0, s, h => (h, s, none)
  | n + 1, s, h =>
    match WalkForward h with
    | (Except.error _, h2) => (h2, s, none)
    | (Except.ok ev, h2) =>
      match sub.ApplyEvent s ev with
      | (s2, some e) => (h2, s2, some e)
      | (s2, none) =>
        if sub.HasError s2 then (h2, s2, none) else alignAux sub n s2 h2

/-- Modelled from the spec: see `alignAux`. -/
def align {σ E : Type} (sub : Subject σ E) (s : σ) (h : History E) :
    History E × σ × Option GoErr :=
  alignAux sub (h.timeline.length - h.arrow) s h

/-- `applyOnce` from `history/evaluator.go`: retrieve the candidate
histories, keep the last one as the continuation of the current path, push
the others onto the stack, then walk the continuation forward by one event.
Returns the grown stack, the updated state and history, and the error:
`ErrBreak` when the path terminated (no candidates, or soft error after the
step), anything else being fatal. -/
def Evaluator.applyOnce {σ E : Type} (sub : Subject σ E) (paths : List (History E))
    (s : σ) (h : History E) :
    List (History E) × σ × History E × Option GoErr :=
  match nextEvents sub s h with
  | (_, some e) => (paths, s, h, some e)
  | (nexts, none) =>
    if nexts.isEmpty then (paths, s, h, some GoErr.breakSentinel)
    else
      let h1 := nexts.getLastD default
      let paths1 := Evaluator.push paths nexts.dropLast
      match walkOnce sub s h1 with
      | (h2, s2, some e) => (paths1, s2, h2, some e)
      | (h2, s2, none) =>
        if sub.HasError s2 then (paths1, s2, h2, some GoErr.breakSentinel)
        else (paths1, s2, h2, none)

/-- Outcome of the inner `applyOnce` loop of `apply`. -/
inductive InnerOut (σ E : Type) where
  | broke (paths : List (History E)) (s : σ) (h : History E) : InnerOut σ E
  | fatal (paths : List (History E)) (s : σ) (h : History E) (e : GoErr) : InnerOut σ E
  | outOfFuel : InnerOut σ E

/-- The inner loop of `apply` in `history/evaluator.go`: repeat `applyOnce`
until it returns `ErrBreak` (path finished) or any other error (fatal). -/
def Evaluator.innerLoop {σ E : Type} (sub : Subject σ E) :
    Nat → List (History E) → σ → History E → InnerOut σ E
  | 0, _, _, _ => InnerOut.outOfFuel
  | n + 1, paths, s, h =>
    match Evaluator.applyOnce sub paths s h with
    | (paths1, s1, h1, some GoErr.breakSentinel) => InnerOut.broke paths1 s1 h1
    | (paths1, s1, h1, some e) => InnerOut.fatal paths1 s1 h1 e
    | (paths1, s1, h1, none) => Evaluator.innerLoop sub n paths1 s1 h1

/-- The loop body of `apply` from `history/evaluator.go`: pop the top
history, restart it, construct a fresh subject, realign, and run the inner
loop; valid results are yielded immediately, invalid ones buffered in
`invalids` and yielded once the stack drains; an initFn, align or step error
yields exactly one wrapped error result and stops. The consumer pulls the
whole sequence; `none` means the fuel ran out before the Go loop finished. -/
def Evaluator.applyLoop {σ E : Type} (sub : Subject σ E) (initFn : Except GoErr σ) :
    Nat → List (History E) → List (Result σ E) → Option (List (Result σ E))
  | 0, _, _ => none
  | fuel + 1, paths, invalids =>
    match Evaluator.pop paths with
    | none => some invalids
    | some (top0, paths1) =>
      let top := Restart top0
      match initFn with
      | Except.error e =>
        some [NewResult top none (some (GoErr.wrap "initFn() failed" e))]
      | Except.ok s0 =>
        match align sub s0 top with
        | (top1, s1, some e) =>
          some [NewResult top1 (some s1) (some (GoErr.wrap "align() failed" e))]
        | (top1, s1, none) =>
          match Evaluator.innerLoop sub fuel paths1 s1 top1 with
          | InnerOut.outOfFuel => none
          | InnerOut.fatal _ s2 top2 e =>
            some [NewResult top2 (some s2) (some (GoErr.wrap "doOne() failed" e))]
          | InnerOut.broke paths2 s2 top2 =>
            let r := NewResult top2 (some s2) none
            if sub.HasError s2 then
              Evaluator.applyLoop sub initFn fuel paths2 (invalids ++ [r])
            else
              match Evaluator.applyLoop sub initFn fuel paths2 invalids with
              | none => none
              | some rest => some (r :: rest)

/-- `apply` from `history/evaluator.go`: seed the local evaluator's stack
with one empty history and run the loop. -/
def Evaluator.apply {σ E : Type} (e : Evaluator σ E) (fuel : Nat) :
    Option (List (Result σ E)) :=
  Evaluator.applyLoop e.sub e.initFn fuel
    (Evaluator.push [] [({ timeline := [], arrow := 0 } : History E)]) []

/-- `AsSeq` from `history/evaluator.go`: a nil receiver returns a sequence
that yields nothing; otherwise the sequence produced by `apply`. -/
def Evaluator.AsSeq {σ E : Type} (e : Option (Evaluator σ E)) (fuel : Nat) :
    Option (List (Result σ E)) :=
  match e with
  | none => some []
  | some ev => Evaluator.apply ev fuel

/-- The `Accumulator` of `result/accumulator.go` (zero value: no results,
not valid). -/
structure Accumulator (α : Type) where
  results : List α
  is_valid : Bool

/-- The zero-valued accumulator (`var builder evres.Accumulator`). -/
def Accumulator.empty {α : Type} : Accumulator α :=
  { results := [], is_valid := false }

/-- `AddValid` from `result/accumulator.go`: discards buffered invalid
results, appends the element, marks the accumulator valid. -/
def Accumulator.AddValid {α : Type} (a : Accumulator α) (elem : α) : Accumulator α :=
  let results := if ¬a.is_valid ∧ a.results.length > 0 then [] else a.results
  { results := results ++ [elem], is_valid := true }

/-- `AddInvalid` from `result/accumulator.go`: discarded when the
accumulator holds valid results, appended otherwise. -/
def Accumulator.AddInvalid {α : Type} (a : Accumulator α) (elem : α) : Accumulator α :=
  if a.is_valid then a else { a with results := a.results ++ [elem] }

/-- `Results` from `result/accumulator.go`: nil for an empty accumulator,
else a copy of the buffered results (`none` models the Go nil slice). -/
def Accumulator.Results {α : Type} (a : Accumulator α) : Option (List α) :=
  if a.results.isEmpty then none else some a.results

/-- `res.Subject.HasError()` as called in `execute`; a nil subject never
reaches this call in a run (nil subjects are always paired with an error,
returned one line earlier), so the `none` case is arbitrary. -/
def subjectHasError {σ E : Type} (sub : Subject σ E) (r : Result σ E) : Bool :=
  match r.Subject with
  | some s => sub.HasError s
  | none => false

/-- The `for res := range seq` loop of `execute` in `history/evaluator.go`:
stop at the first result carrying an error and return that error with the
results collected so far; otherwise classify each result through the
accumulator. -/
def Evaluator.executeLoop {σ E : Type} (sub : Subject σ E) :
    List (Result σ E) → Accumulator (Result σ E) →
      Option (List (Result σ E)) × Option GoErr
  | [], builder => (builder.Results, none)
  | res :: rest, builder =>
    match res.Error with
    | some e => (builder.Results, some e)
    | none =>
      if subjectHasError sub res then
        Evaluator.executeLoop sub rest (builder.AddInvalid res)
      else
        Evaluator.executeLoop sub rest (builder.AddValid res)

/-- `execute` from `history/evaluator.go`. -/
def Evaluator.execute {σ E : Type} (e : Evaluator σ E) (fuel : Nat) :
    Option (Option (List (Result σ E)) × Option GoErr) :=
  match Evaluator.apply e fuel with
  | none => none
  | some out => some (Evaluator.executeLoop e.sub out Accumulator.empty)

/-- `Execute` from `history/evaluator.go`: a nil receiver returns the nil
slice together with `common.ErrNilReceiver`. -/
def Evaluator.Execute {σ E : Type} (e : Option (Evaluator σ E)) (fuel : Nat) :
    Option (Option (List (Result σ E)) × Option GoErr) :=
  match e with
  | none => some (none, some GoErr.nilReceiver)
  | some ev => Evaluator.execute ev fuel

/-- C10: the public entry points on a nil Evaluator are total and
non-panicking: `AsSeq` yields no Results and `Execute` returns the nil slice
with the `ErrNilReceiver` sentinel, whatever the fuel. -/
theorem nil_receiver_entry_points {σ E : Type} (fuel : Nat) :
    Evaluator.AsSeq (σ := σ) (E := E) none fuel = some [] ∧
    Evaluator.Execute (σ := σ) (E := E) none fuel =
      some (none, some GoErr.nilReceiver) :=
  ⟨rfl, rfl⟩

/-- Witness for C10 at concrete types and fuel. -/
theorem nil_receiver_entry_points_witness :
    Evaluator.AsSeq (σ := Unit) (E := Unit) none 0 = some [] ∧
    Evaluator.Execute (σ := Unit) (E := Unit) none 0 =
      some (none, some GoErr.nilReceiver) :=
  nil_receiver_entry_points 0

/-- The depth-bounded branching subject of spec §8 ("Fixed branching factor"
and the `N`-bit counter): its state is the list of events applied so far;
strictly below depth `d` it offers the alphabet of the current depth, at
depth `d` it is terminal; it never errors, fatally or softly. -/
def depthSubject (E : Type) (alphabets : Nat → List E) (d : Nat) :
    Subject (List E) E :=
  { ApplyEvent := fun s e => (s ++ [e], none)
    NextEvents := fun s => (if s.length < d then alphabets s.length else [], none)
    HasError := fun _ => false
    GetError := fun _ => GoErr.msg "" }

/-- The 3-bit counter subject of C1: `NextEvents` returns `{0, 1}` while the
recorded timeline is shorter than 3, the empty slice otherwise. -/
def counter3 : Subject (List Nat) Nat :=
  depthSubject Nat (fun _ => [0, 1]) 3

lemma evaluator_pop_concat {E : Type} (paths : List (History E)) (h : History E) :
    Evaluator.pop (paths ++ [h]) = some (h, paths) := by
  unfold Evaluator.pop
  rw [List.getLast?_concat, List.dropLast_concat]

lemma evaluator_pop_eq_some {E : Type} {paths t : List (History E)} {h : History E}
    (hp : Evaluator.pop paths = some (h, t)) : paths = t ++ [h] := by
  induction paths using List.reverseRecOn with
  | nil => simp [Evaluator.pop] at hp
  | append_singleton l a _ =>
    rw [evaluator_pop_concat] at hp
    obtain ⟨rfl, rfl⟩ : a = h ∧ l = t := by
      constructor <;> [exact congrArg (fun x => (Option.getD x (a, l)).1) hp;
        exact congrArg (fun x => (Option.getD x (a, l)).2) hp]
    rfl

lemma evaluator_pop_eq_none {E : Type} {paths : List (History E)}
    (hp : Evaluator.pop paths = none) : paths = [] := by
  induction paths using List.reverseRecOn with
  | nil => rfl
  | append_singleton l a _ => rw [evaluator_pop_concat] at hp; cases hp

/-- Counterexample to C1: the Evaluator of `history/evaluator.go` does NOT
dequeue the earliest-created branch first. Pushing the branch `⟨[0], 0⟩`
first and the branch `⟨[1], 0⟩` afterwards, `pop` returns the LATER-created
`⟨[1], 0⟩`; consequently, on the 3-bit counter the first yielded timeline is
`[1, 1, 1]` (and `[0, 0, 0]` — the branch created first at every branch
point — is yielded last), not a breadth-first, earliest-first order. -/
theorem evaluator_fifo_counterexample :
    Evaluator.pop (Evaluator.push (Evaluator.push ([] : List (History Nat))
        [{ timeline := [0], arrow := 0 }]) [{ timeline := [1], arrow := 0 }]) =
      some ({ timeline := [1], arrow := 0 }, [{ timeline := [0], arrow := 0 }]) ∧
    (Evaluator.apply { sub := counter3, initFn := Except.ok [] } 20).map
        (fun l => l.map Result.Timeline) =
      some [[1, 1, 1], [1, 1, 0], [1, 0, 1], [1, 0, 0],
            [0, 1, 1], [0, 1, 0], [0, 0, 1], [0, 0, 0]] ∧
    ([[1, 1, 1], [1, 1, 0], [1, 0, 1], [1, 0, 0],
      [0, 1, 1], [0, 1, 0], [0, 0, 1], [0, 0, 0]] : List (List Nat)).head? ≠
      some [0, 0, 0] := by
  refine ⟨by decide, by decide, by decide⟩

/-- C1 as amended: the Evaluator processes pending Histories in LIFO order —
`pop` dequeues the most recently pushed branch first — and on the 3-bit
counter subject it yields exactly 8 valid Results whose timelines are the 8
distinct 3-bit sequences, each exactly once, in depth-first order with the
last-listed next event explored first. -/
theorem evaluator_lifo_counter3 :
    (∀ (paths : List (History Nat)) (h : History Nat),
      Evaluator.pop (paths ++ [h]) = some (h, paths)) ∧
    Evaluator.apply { sub := counter3, initFn := Except.ok [] } 20 =
      some [{ Timeline := [1, 1, 1], Subject := some [1, 1, 1], Error := none },
            { Timeline := [1, 1, 0], Subject := some [1, 1, 0], Error := none },
            { Timeline := [1, 0, 1], Subject := some [1, 0, 1], Error := none },
            { Timeline := [1, 0, 0], Subject := some [1, 0, 0], Error := none },
            { Timeline := [0, 1, 1], Subject := some [0, 1, 1], Error := none },
            { Timeline := [0, 1, 0], Subject := some [0, 1, 0], Error := none },
            { Timeline := [0, 0, 1], Subject := some [0, 0, 1], Error := none },
            { Timeline := [0, 0, 0], Subject := some [0, 0, 0], Error := none }] :=
  ⟨fun paths h => evaluator_pop_concat paths h, by decide⟩

/-- A subject whose only (empty) path is invalid: terminal at the root with
`HasError` always true; never fatally errors. -/
def allInvalidSubject : Subject Unit Unit :=
  { ApplyEvent := fun s _ => (s, none)
    NextEvents := fun _ => ([], none)
    HasError := fun _ => true
    GetError := fun _ => GoErr.msg "soft failure" }

/-- Counterexample to C5: when every explored path is invalid, `Execute`
returns the invalid Results together with a NIL error — there is no
distinguished "no valid result" signal. On `allInvalidSubject` the single
(invalid) result is returned and the error component is `none`, exactly as
for a fully successful run. -/
theorem execute_no_valid_signal_counterexample :
    Evaluator.Execute
        (some { sub := allInvalidSubject, initFn := Except.ok () }) 5 =
      some (some [{ Timeline := [], Subject := some (), Error := none }], none) := by
  decide

lemma executeLoop_all_invalid {σ E : Type} (sub : Subject σ E) :
    ∀ (l : List (Result σ E)) (rs : List (Result σ E)),
      (∀ r ∈ l, r.Error = none ∧ subjectHasError sub r = true) →
      Evaluator.executeLoop sub l { results := rs, is_valid := false } =
        (Accumulator.Results { results := rs ++ l, is_valid := false }, none) := by
  intro l
  induction l with
  | nil => intro rs _; simp [Evaluator.executeLoop]
  | cons r rest ih =>
    intro rs hall
    obtain ⟨he, hi⟩ := hall r (List.mem_cons_self r rest)
    have hrest : ∀ x ∈ rest, x.Error = none ∧ subjectHasError sub x = true :=
      fun x hx => hall x (List.mem_cons_of_mem r hx)
    rw [Evaluator.executeLoop, he]
    simp only [hi, if_pos]
    have : Accumulator.AddInvalid { results := rs, is_valid := false } r =
        { results := rs ++ [r], is_valid := false } := by
      simp [Accumulator.AddInvalid]
    rw [this, ih (rs ++ [r]) hrest]
    simp

/-- C5 as amended: if the run completes and every yielded Result is invalid
(soft error, no fatal error), the eager entry point `Execute` still returns
all of the invalid Results, but with a NIL error return value — the absence
of a valid result carries no distinguished signal and is observable only
through the Results' subjects, not through the error channel. -/
theorem execute_all_invalid_nil_error {σ E : Type} (sub : Subject σ E)
    (initFn : Except GoErr σ) (fuel : Nat) (out : List (Result σ E))
    (hrun : Evaluator.apply { sub := sub, initFn := initFn } fuel = some out)
    (hne : out ≠ [])
    (hall : ∀ r ∈ out, r.Error = none ∧ subjectHasError sub r = true) :
    Evaluator.Execute (some { sub := sub, initFn := initFn }) fuel =
      some (some out, none) := by
  simp only [Evaluator.Execute, Evaluator.execute, hrun]
  have := executeLoop_all_invalid sub out [] hall
  simp only [List.nil_append] at this
  rw [show Accumulator.empty = ({ results := [], is_valid := false } :
    Accumulator (Result σ E)) from rfl, this]
  simp [Accumulator.Results, hne]

/-- Witness for C5's amended theorem on the concrete all-invalid subject. -/
theorem execute_all_invalid_nil_error_witness :
    Evaluator.Execute (some { sub := allInvalidSubject, initFn := Except.ok () }) 7 =
      some (some [{ Timeline := [], Subject := some (), Error := none }], none) :=
  execute_all_invalid_nil_error allInvalidSubject (Except.ok ()) 7
    [{ Timeline := [], Subject := some (), Error := none }]
    (by decide) (by decide) (by decide)

lemma applyLoop_split {σ E : Type} (sub : Subject σ E) (initFn : Except GoErr σ) :
    ∀ (fuel : Nat) (paths : List (History E)) (acc out : List (Result σ E)),
      Evaluator.applyLoop sub initFn fuel paths acc = some out →
      (∀ r ∈ acc, r.Error = none ∧ subjectHasError sub r = true) →
      (∀ r ∈ out, r.Error = none) →
      ∃ vs newInv, out = vs ++ acc ++ newInv ∧
        (∀ r ∈ vs, r.Error = none ∧ subjectHasError sub r = false) ∧
        (∀ r ∈ newInv, r.Error = none ∧ subjectHasError sub r = true) := by
  intro fuel
  induction fuel with
  | zero =>
    intro paths acc out hrun _ _
    simp [Evaluator.applyLoop] at hrun
  | succ n ih =>
    intro paths acc out hrun hacc hout
    rw [Evaluator.applyLoop] at hrun
    rcases hpop : Evaluator.pop paths with _ | ⟨top0, paths1⟩
    · simp only [hpop, Option.some.injEq] at hrun
      subst hrun
      exact ⟨[], [], by simp, by simp, by simp⟩
    · simp only [hpop] at hrun
      rcases hinit : initFn with e | s0
      · simp only [hinit, Option.some.injEq] at hrun
        subst hrun
        have := hout _ (List.mem_singleton_self _)
        simp [NewResult] at this
      · simp only [hinit] at hrun
        rw [← hinit] at hrun
        rcases halign : align sub s0 (Restart top0) with ⟨top1, s1, _ | e⟩
        · simp only [halign] at hrun
          rcases hil : Evaluator.innerLoop sub n paths1 s1 top1 with
            ⟨paths2, s2, top2⟩ | ⟨paths2, s2, top2, e⟩ | _
          · simp only [hil] at hrun
            by_cases h2 : sub.HasError s2 = true
            · rw [if_pos h2] at hrun
              have haccr : ∀ r ∈ acc ++ [NewResult top2 (some s2) none],
                  r.Error = none ∧ subjectHasError sub r = true := by
                intro r hr
                rcases List.mem_append.mp hr with hr | hr
                · exact hacc r hr
                · rw [List.mem_singleton.mp hr]
                  exact ⟨rfl, by simp [subjectHasError, NewResult, h2]⟩
              obtain ⟨vs, newInv, hsp, hvs, hni⟩ := ih paths2
                (acc ++ [NewResult top2 (some s2) none]) out hrun haccr hout
              refine ⟨vs, [NewResult top2 (some s2) none] ++ newInv, ?_, hvs, ?_⟩
              · rw [hsp]; simp
              · intro r hr
                rcases List.mem_append.mp hr with hr | hr
                · rw [List.mem_singleton.mp hr]
                  exact ⟨rfl, by simp [subjectHasError, NewResult, h2]⟩
                · exact hni r hr
            · rw [if_neg h2] at hrun
              rcases hrec : Evaluator.applyLoop sub initFn n paths2 acc with _ | rest
              · simp [hrec] at hrun
              · simp only [hrec, Option.some.injEq] at hrun
                subst hrun
                have hrest : ∀ r ∈ rest, r.Error = none :=
                  fun r hr => hout r (List.mem_cons_of_mem _ hr)
                obtain ⟨vs, newInv, hsp, hvs, hni⟩ := ih paths2 acc rest hrec hacc hrest
                refine ⟨NewResult top2 (some s2) none :: vs, newInv, by rw [hsp]; simp, ?_, hni⟩
                intro r hr
                rcases List.mem_cons.mp hr with hr | hr
                · subst hr
                  exact ⟨rfl, by simp [subjectHasError, NewResult, h2]⟩
                · exact hvs r hr
          · simp only [hil, Option.some.injEq] at hrun
            subst hrun
            have := hout _ (List.mem_singleton_self _)
            simp [NewResult] at this
          · simp [hil] at hrun
        · simp only [halign, Option.some.injEq] at hrun
          subst hrun
          have := hout _ (List.mem_singleton_self _)
          simp [NewResult] at this

/-- C3: in a completed run of the Evaluator's result sequence in which no
fatal error occurs, the sequence splits into the valid Results followed by
all the buffered invalid Results: every valid Result (subject without soft
error) is yielded strictly before every invalid Result, and the invalid
Results are not dropped — they form the final segment of the sequence. -/
theorem valid_results_precede_invalid {σ E : Type} (sub : Subject σ E)
    (initFn : Except GoErr σ) (fuel : Nat) (out : List (Result σ E))
    (hrun : Evaluator.apply { sub := sub, initFn := initFn } fuel = some out)
    (hnofatal : ∀ r ∈ out, r.Error = none) :
    ∃ vs inv, out = vs ++ inv ∧
      (∀ r ∈ vs, subjectHasError sub r = false) ∧
      (∀ r ∈ inv, subjectHasError sub r = true) ∧
      (∀ (i j : Nat) (ri rj : Result σ E), out[i]? = some ri → out[j]? = some rj →
        subjectHasError sub ri = false → subjectHasError sub rj = true → i < j) := by
  unfold Evaluator.apply at hrun
  obtain ⟨vs, inv, hsp, hvs, hni⟩ :=
    applyLoop_split sub initFn fuel _ [] out hrun (by simp) hnofatal
  simp only [List.append_nil, List.nil_append] at hsp
  refine ⟨vs, inv, hsp, fun r hr => (hvs r hr).2, fun r hr => (hni r hr).2, ?_⟩
  intro i j ri rj hi hj hvalid hinvalid
  have hiv : i < vs.length := by
    by_contra hc
    push_neg at hc
    rw [hsp, List.getElem?_append, if_neg (by omega)] at hi
    have := (hni ri (List.getElem?_mem hi)).2
    rw [hvalid] at this
    cases this
  have hjv : vs.length ≤ j := by
    by_contra hc
    push_neg at hc
    rw [hsp, List.getElem?_append, if_pos hc] at hj
    have := (hvs rj (List.getElem?_mem hj)).2
    rw [hinvalid] at this
    cases this
  omega

/-- A subject with one valid path (`[1]`) and one soft-failing path (`[0]`):
depth 1, alphabet `{0, 1}`, soft error exactly on the state `[0]`. -/
def mixedSubject : Subject (List Nat) Nat :=
  { ApplyEvent := fun s e => (s ++ [e], none)
    NextEvents := fun s => (if s.length < 1 then [0, 1] else [], none)
    HasError := fun s => s == [0]
    GetError := fun _ => GoErr.msg "soft failure" }

/-- Witness for C3 on `mixedSubject`: its completed run yields the valid
Result `[1]` and the invalid Result `[0]`, in that order. -/
theorem valid_results_precede_invalid_witness :
    ∃ vs inv,
      ([{ Timeline := [1], Subject := some [1], Error := none },
        { Timeline := [0], Subject := some [0], Error := none }] :
          List (Result (List Nat) Nat)) = vs ++ inv ∧
      (∀ r ∈ vs, subjectHasError mixedSubject r = false) ∧
      (∀ r ∈ inv, subjectHasError mixedSubject r = true) ∧
      (∀ (i j : Nat) (ri rj : Result (List Nat) Nat),
        ([{ Timeline := [1], Subject := some [1], Error := none },
          { Timeline := [0], Subject := some [0], Error := none }] :
            List (Result (List Nat) Nat))[i]? = some ri →
        ([{ Timeline := [1], Subject := some [1], Error := none },
          { Timeline := [0], Subject := some [0], Error := none }] :
            List (Result (List Nat) Nat))[j]? = some rj →
        subjectHasError mixedSubject ri = false →
        subjectHasError mixedSubject rj = true → i < j) :=
  valid_results_precede_invalid mixedSubject (Except.ok []) 10 _ (by decide) (by decide)

lemma applyLoop_error_last {σ E : Type} (sub : Subject σ E) (initFn : Except GoErr σ) :
    ∀ (fuel : Nat) (paths : List (History E)) (acc out : List (Result σ E)),
      Evaluator.applyLoop sub initFn fuel paths acc = some out →
      (∀ r ∈ acc, r.Error = none) →
      ∀ (i : Nat) (ri : Result σ E), out[i]? = some ri → ri.Error.isSome = true →
        i + 1 = out.length := by
  intro fuel
  induction fuel with
  | zero =>
    intro paths acc out hrun _
    simp [Evaluator.applyLoop] at hrun
  | succ n ih =>
    intro paths acc out hrun hacc i ri hi hsome
    rw [Evaluator.applyLoop] at hrun
    rcases hpop : Evaluator.pop paths with _ | ⟨top0, paths1⟩
    · simp only [hpop, Option.some.injEq] at hrun
      subst hrun
      rw [hacc ri (List.getElem?_mem hi)] at hsome
      cases hsome
    · simp only [hpop] at hrun
      rcases hinit : initFn with e | s0
      · simp only [hinit, Option.some.injEq] at hrun
        subst hrun
        have := (List.getElem?_eq_some_iff.mp hi).1
        simp only [List.length_singleton] at this ⊢
        omega
      · simp only [hinit] at hrun
        rw [← hinit] at hrun
        rcases halign : align sub s0 (Restart top0) with ⟨top1, s1, _ | e⟩
        · simp only [halign] at hrun
          rcases hil : Evaluator.innerLoop sub n paths1 s1 top1 with
            ⟨paths2, s2, top2⟩ | ⟨paths2, s2, top2, e⟩ | _
          · simp only [hil] at hrun
            by_cases h2 : sub.HasError s2 = true
            · rw [if_pos h2] at hrun
              refine ih paths2 (acc ++ [NewResult top2 (some s2) none]) out hrun ?_ i ri hi hsome
              intro r hr
              rcases List.mem_append.mp hr with hr | hr
              · exact hacc r hr
              · rw [List.mem_singleton.mp hr]
                rfl
            · rw [if_neg h2] at hrun
              rcases hrec : Evaluator.applyLoop sub initFn n paths2 acc with _ | rest
              · simp [hrec] at hrun
              · simp only [hrec, Option.some.injEq] at hrun
                subst hrun
                rcases i with _ | j
                · simp only [List.getElem?_cons_zero, Option.some.injEq] at hi
                  rw [← hi] at hsome
                  simp [NewResult] at hsome
                · rw [List.getElem?_cons_succ] at hi
                  have := ih paths2 acc rest hrec hacc j ri hi hsome
                  simp only [List.length_cons]
                  omega
          · simp only [hil, Option.some.injEq] at hrun
            subst hrun
            have := (List.getElem?_eq_some_iff.mp hi).1
            simp only [List.length_singleton] at this ⊢
            omega
          · simp [hil] at hrun
        · simp only [halign, Option.some.injEq] at hrun
          subst hrun
          have := (List.getElem?_eq_some_iff.mp hi).1
          simp only [List.length_singleton] at this ⊢
          omega

lemma executeLoop_error_at_end {σ E : Type} (sub : Subject σ E) :
    ∀ (l : List (Result σ E)) (builder : Accumulator (Result σ E))
      (r : Result σ E) (e : GoErr),
      (∀ x ∈ l, x.Error = none) → r.Error = some e →
      (Evaluator.executeLoop sub (l ++ [r]) builder).2 = some e := by
  intro l
  induction l with
  | nil =>
    intro builder r e _ hre
    simp [Evaluator.executeLoop, hre]
  | cons x rest ih =>
    intro builder r e hl hre
    rw [List.cons_append, Evaluator.executeLoop,
      hl x (List.mem_cons_self x rest)]
    have hrest : ∀ y ∈ rest, y.Error = none :=
      fun y hy => hl y (List.mem_cons_of_mem x hy)
    by_cases hx : subjectHasError sub x
    · rw [if_pos hx]
      exact ih _ r e hrest hre
    · rw [if_neg hx]
      exact ih _ r e hrest hre

/-- C4: in any completed run of the Evaluator, a Result carrying an error can
only be the final element of the yielded sequence (so at most one error
Result is yielded, with nothing after it — neither queued, valid, nor
invalid Results); and when such an error Result is yielded, the eager entry
point `Execute` returns that very error as its error return value. -/
theorem fatal_error_short_circuits {σ E : Type} (sub : Subject σ E)
    (initFn : Except GoErr σ) (fuel : Nat) (out : List (Result σ E))
    (hrun : Evaluator.apply { sub := sub, initFn := initFn } fuel = some out) :
    (∀ (i : Nat) (ri : Result σ E), out[i]? = some ri → ri.Error.isSome = true →
      i + 1 = out.length) ∧
    (∀ (r : Result σ E) (e : GoErr), r ∈ out → r.Error = some e →
      ∃ res, Evaluator.Execute (some { sub := sub, initFn := initFn }) fuel =
        some (res, some e)) := by
  have hlast : ∀ (i : Nat) (ri : Result σ E), out[i]? = some ri →
      ri.Error.isSome = true → i + 1 = out.length := by
    unfold Evaluator.apply at hrun
    exact applyLoop_error_last sub initFn fuel _ [] out hrun (by simp)
  refine ⟨hlast, ?_⟩
  intro r e hmem hre
  obtain ⟨i, hi⟩ := List.getElem?_of_mem hmem
  have hilen : i + 1 = out.length := hlast i r hi (by rw [hre]; rfl)
  have hne : out ≠ [] := by
    intro hc
    rw [hc] at hi
    simp at hi
  have hdecomp : out = out.dropLast ++ [r] := by
    have h1 : out = out.dropLast ++ [out.getLast hne] :=
      (List.dropLast_append_getLast hne).symm
    have hi2 : out[out.length - 1]? = some r := by
      rw [show out.length - 1 = i from by omega]
      exact hi
    have h2 : out.getLast hne = r := by
      rw [List.getLast_eq_getElem]
      exact (List.getElem?_eq_some_iff.mp hi2).2
    rw [h2] at h1
    exact h1
  have hdrop : ∀ x ∈ out.dropLast, x.Error = none := by
    intro x hx
    obtain ⟨j, hj⟩ := List.getElem?_of_mem hx
    have hjlen : j < out.dropLast.length := (List.getElem?_eq_some_iff.mp hj).1
    rw [List.length_dropLast] at hjlen
    have hj2 : out[j]? = some x := by
      conv_lhs => rw [hdecomp]
      rw [List.getElem?_append, if_pos (by rw [List.length_dropLast]; omega)]
      exact hj
    by_cases hxe : x.Error.isSome = true
    · have := hlast j x hj2 hxe
      omega
    · exact Option.not_isSome_iff_eq_none.mp (by simpa using hxe)
  simp only [Evaluator.Execute, Evaluator.execute, hrun]
  have hsnd : (Evaluator.executeLoop sub out Accumulator.empty).2 = some e := by
    conv_lhs => rw [hdecomp]
    exact executeLoop_error_at_end sub out.dropLast Accumulator.empty r e hdrop hre
  refine ⟨(Evaluator.executeLoop sub out Accumulator.empty).1, ?_⟩
  rw [← hsnd, Prod.mk.eta]

/-- A subject whose `ApplyEvent` fails fatally on the event `1` (which the
Evaluator tries first): depth 2, alphabet `{0, 1}`. -/
def fatalSubject : Subject (List Nat) Nat :=
  { ApplyEvent := fun s e =>
      if e = 1 then (s, some (GoErr.msg "boom")) else (s ++ [e], none)
    NextEvents := fun s => (if s.length < 2 then [0, 1] else [], none)
    HasError := fun _ => false
    GetError := fun _ => GoErr.msg "" }

/-- The single Result yielded by a run on `fatalSubject`: it carries the
wrapped fatal error. -/
def fatalResult : Result (List Nat) Nat :=
  { Timeline := [1], Subject := some []
    Error := some (GoErr.wrap "doOne() failed" (GoErr.msg "boom")) }

/-- Witness for C4: on `fatalSubject` the run yields exactly one Result, it
carries the wrapped fatal error, and `Execute` returns that error. -/
theorem fatal_error_short_circuits_witness :
    (∀ (i : Nat) (ri : Result (List Nat) Nat),
      [fatalResult][i]? = some ri → ri.Error.isSome = true →
      i + 1 = [fatalResult].length) ∧
    (∀ (r : Result (List Nat) Nat) (e : GoErr),
      r ∈ [fatalResult] → r.Error = some e →
      ∃ res, Evaluator.Execute (some { sub := fatalSubject, initFn := Except.ok [] }) 10 =
        some (res, some e)) :=
  fatal_error_short_circuits fatalSubject (Except.ok []) 10 [fatalResult] (by decide)

/-- `internal.Queue` from `history/internal/queue.go` (FIFO). -/
structure Queue (α : Type) where
  elems : List α

/-- `IsEmpty` from `history/internal/queue.go`. -/
def Queue.IsEmpty {α : Type} (q : Queue α) : Bool :=
  q.elems.isEmpty

/-- `Enqueue` from `history/internal/queue.go`: appends at the back. -/
def Queue.Enqueue {α : Type} (q : Queue α) (e : α) : Queue α :=
  { elems := q.elems ++ [e] }

/-- `Dequeue` from `history/internal/queue.go`: takes the front element,
failing with `ErrEmptyQueue` on an empty queue. -/
def Queue.Dequeue {α : Type} (q : Queue α) : Except GoErr (α × Queue α) :=
  match q.elems with
  | [] => Except.error GoErr.emptyQueue
  | e :: rest => Except.ok (e, { elems := rest })

/-- The `Pair` yielded by the queue-based `Evaluate` revision: the subject
reached (`none` models a Go nil Subject) and its timeline. -/
structure Pair (σ E : Type) where
  Subject : Option σ
  History : List E
deriving DecidableEq, Repr

/-- `realign` from the queue-based revision: walk the history from its
current position, applying each event; a fatal `ApplyEvent` error or a soft
error discovered mid-replay is returned as a wrapped error (both abort the
whole `Evaluate` run in this revision). Bounded by the unread events. -/
def realignAux {σ E : Type} (sub : Subject σ E) :
    Nat → σ → History E → History E × σ × Option GoErr
  | 0, s, h => (h, s, none)
  | n + 1, s, h =>
    match WalkForward h with
    | (Except.error _, h2) => (h2, s, none)
    | (Except.ok ev, h2) =>
      match sub.ApplyEvent s ev with
      | (s2, some e) => (h2, s2, some (GoErr.wrap "while applying event" e))
      | (s2, none) =>
        if sub.HasError s2 then
          (h2, s2, some (GoErr.wrap "subject has an error" (sub.GetError s2)))
        else realignAux sub n s2 h2

/-- See `realignAux` (the `Walk` of the source is `WalkForward`). -/
def realignQ {σ E : Type} (sub : Subject σ E) (s : σ) (h : History E) :
    History E × σ × Option GoErr :=
  realignAux sub (h.timeline.length - h.arrow) s h

/-- `pushPaths` from the queue-based revision: one candidate per next event,
in reverse order; all but the last reversed candidate (i.e. all but the FIRST
event's history) are enqueued, and the first event's history becomes the
continuation. An empty `nexts` is asserted away by the Go code. -/
def pushPathsQ {E : Type} (nexts : List E) (h : History E)
    (q : Queue (History E)) : History E × Queue (History E) :=
  match nexts with
  | [] => (h, q)
  | [e] => (AppendEvent h e, q)
  | _ =>
    let paths := (nexts.map (fun e => AppendEvent h e)).reverse
    (paths.getLastD default, { elems := q.elems ++ paths.dropLast })

/-- The stepping loop of `executeUntil` from the queue-based revision. The
in-loop `history.Walk()` is asserted never to fail in Go; the unreachable
failure is modelled as an `ErrEOT`-carrying stop. -/
def executeUntilLoop {σ E : Type} (sub : Subject σ E) :
    Nat → Queue (History E) → σ → History E →
      Option (History E × Queue (History E) × σ × Option GoErr)
  | 0, _, _, _ => none
  | n + 1, q, s, h =>
    match sub.NextEvents s with
    | (_, some e) => some (h, q, s, some e)
    | (nexts, none) =>
      if nexts.isEmpty then some (h, q, s, none)
      else
        match pushPathsQ nexts h q with
        | (h1, q1) =>
          if sub.HasError s then some (h1, q1, s, none)
          else
            match WalkForward h1 with
            | (Except.error _, h2) => some (h2, q1, s, some GoErr.eot)
            | (Except.ok ev, h2) =>
              match sub.ApplyEvent s ev with
              | (s2, some e) => some (h2, q1, s2, some e)
              | (s2, none) =>
                if sub.HasError s2 then some (h2, q1, s2, none)
                else executeUntilLoop sub n q1 s2 h2

/-- `executeUntil` from the queue-based revision: dequeue the front history
(asserted to exist), realign the fresh subject, then step until the path
terminates, fails softly, or a fatal error occurs. -/
def executeUntilQ {σ E : Type} (sub : Subject σ E) (fuel : Nat)
    (q : Queue (History E)) (s : σ) :
    Option (History E × Queue (History E) × σ × Option GoErr) :=
  match q.Dequeue with
  | Except.error e => some (default, q, s, some e)
  | Except.ok (h, q1) =>
    match realignQ sub s h with
    | (h2, s2, some e) => some (h2, q1, s2, some e)
    | (h2, s2, none) => executeUntilLoop sub fuel q1 s2 h2

/-- The loop of `Evaluate` from the queue-based revision
(`src/unnamed/part_005`): while the queue is nonempty, construct a subject —
a factory error or a nil subject yields exactly one error-carrying pair and
stops — then run `executeUntil`; a fatal error yields one error-carrying pair
and stops; soft-failing paths are buffered and yielded after the drain. -/
def EvaluateLoop {σ E : Type} (sub : Subject σ E) (init : Option σ × Option GoErr) :
    Nat → Queue (History E) → History E → List (Pair σ E) →
      Option (List (Pair σ E × Option GoErr))
  | 0, _, _, _ => none
  | n + 1, q, history, invalids =>
    if q.IsEmpty then
      some (invalids.map (fun p => (p, none)))
    else
      match init with
      | (subj, some e) => some [({ Subject := subj, History := TimelineOf history }, some e)]
      | (none, none) =>
        some [({ Subject := none, History := TimelineOf history },
          some (GoErr.msg "subject is nil"))]
      | (some s0, none) =>
        match executeUntilQ sub n q s0 with
        | none => none
        | some (h2, q2, s2, err) =>
          match err with
          | some e => some [({ Subject := some s2, History := TimelineOf h2 }, some e)]
          | none =>
            if sub.HasError s2 then
              EvaluateLoop sub init n q2 h2
                (invalids ++ [{ Subject := some s2, History := TimelineOf h2 }])
            else
              match EvaluateLoop sub init n q2 h2 invalids with
              | none => none
              | some rest =>
                some (({ Subject := some s2, History := TimelineOf h2 }, none) :: rest)

/-- `Evaluate` from the queue-based revision: seed the FIFO queue with the
zero-valued history and run the loop. -/
def Evaluate {σ E : Type} (sub : Subject σ E) (init : Option σ × Option GoErr)
    (fuel : Nat) : Option (List (Pair σ E × Option GoErr)) :=
  EvaluateLoop sub init fuel
    (Queue.Enqueue { elems := [] } { timeline := [], arrow := 0 })
    { timeline := [], arrow := 0 } []

/-- C6: when the factory returns an error, or returns a nil Subject with a
nil error, `Evaluate` stops immediately: it yields exactly one pair carrying
an error, processes no further Histories, and neither panics nor diverges
(the run completes under any positive fuel). -/
theorem evaluate_nil_or_failing_factory {σ E : Type} (sub : Subject σ E)
    (init : Option σ × Option GoErr) (fuel : Nat) (hf : 0 < fuel)
    (hinit : init.2.isSome = true ∨ init.1 = none) :
    ∃ e : GoErr, Evaluate sub init fuel =
      some [(({ Subject := init.1, History := [] } : Pair σ E), some e)] := by
  rcases fuel with _ | n
  · omega
  · rcases init with ⟨subj, _ | e⟩
    · have hsubj : subj = none := by
        rcases hinit with h | h
        · simp at h
        · exact h
      subst hsubj
      exact ⟨GoErr.msg "subject is nil", rfl⟩
    · exact ⟨e, by simp [Evaluate, EvaluateLoop, Queue.IsEmpty, Queue.Enqueue, TimelineOf]⟩

/-- Witness for C6: a factory that fails with a concrete error. -/
theorem evaluate_nil_or_failing_factory_witness :
    ∃ e : GoErr, Evaluate allInvalidSubject (none, some (GoErr.msg "factory failed")) 1 =
      some [(({ Subject := none, History := [] } : Pair Unit Unit), some e)] :=
  evaluate_nil_or_failing_factory allInvalidSubject
    (none, some (GoErr.msg "factory failed")) 1 (by decide) (Or.inl rfl)

/-- All completions of the prefix `t` to `n` more events, choosing at each
step from the alphabet of the current depth (the Cartesian product of the
per-depth alphabets, rooted at `t`). -/
def comps {E : Type} (A : Nat → List E) : Nat → List E → List (List E)
  | 0, t => [t]
  | n + 1, t => (A t.length).flatMap (fun e => comps A n (t ++ [e]))

/-- The timeline reached from prefix `t` by always continuing with the LAST
offered event (which is the continuation the Evaluator keeps in place). -/
def chainT {E : Type} (A : Nat → List E) : Nat → List E → List E
  | 0, t => t
  | n + 1, t =>
    match (A t.length).getLast? with
    | none => t
    | some c => chainT A n (t ++ [c])

/-- The histories pushed onto the Evaluator's stack while the inner loop
descends along the last-event chain from the aligned prefix `t`. -/
def pushedT {E : Type} (A : Nat → List E) : Nat → List E → List (History E)
  | 0, _ => []
  | n + 1, t =>
    match (A t.length).getLast? with
    | none => []
    | some c =>
      (((A t.length).dropLast).map
        (fun e => AppendEvent { timeline := t, arrow := t.length } e)).reverse
        ++ pushedT A n (t ++ [c])

/-- The valid Result produced for a finished timeline of `depthSubject`. -/
def mkRes {E : Type} (t : List E) : Result (List E) E :=
  { Timeline := t, Subject := some t, Error := none }

/-- The completions of a stacked history's timeline (the Results its subtree
will eventually contribute). -/
def timelineComps {E : Type} (A : Nat → List E) (d : Nat) (h : History E) :
    List (List E) :=
  comps A (d - h.timeline.length) h.timeline

lemma evaluator_push_eq {E : Type} (paths elems : List (History E)) :
    Evaluator.push paths elems = paths ++ elems.reverse := by
  unfold Evaluator.push
  rcases elems with _ | ⟨e, rest⟩ <;> simp

lemma alignAux_depth {E : Type} (A : Nat → List E) (d : Nat) :
    ∀ (n a : Nat) (t : List E), a + n = t.length →
      alignAux (depthSubject E A d) n (t.take a) { timeline := t, arrow := a } =
        ({ timeline := t, arrow := t.length }, t, none) := by
  intro n
  induction n with
  | zero =>
    intro a t h
    rw [alignAux]
    have ha : a = t.length := by omega
    subst ha
    rw [List.take_length]
  | succ n ih =>
    intro a t h
    have ha : a < t.length := by omega
    have he : t[a]? = some (t.get ⟨a, ha⟩) := by
      rw [List.getElem?_eq_getElem ha]
      rfl
    rw [alignAux]
    simp only [WalkForward, he, depthSubject]
    have htake : t.take a ++ [t.get ⟨a, ha⟩] = t.take (a + 1) := by
      rw [List.take_succ, he]
      rfl
    rw [htake]
    exact ih (a + 1) t (by omega)

lemma align_depth {E : Type} (A : Nat → List E) (d : Nat) (h : History E) :
    align (depthSubject E A d) [] (Restart h) =
      ({ timeline := h.timeline, arrow := h.timeline.length }, h.timeline, none) := by
  unfold align Restart
  have h0 : ([] : List E) = h.timeline.take 0 := rfl
  rw [h0]
  exact alignAux_depth A d (h.timeline.length - 0) 0 h.timeline (by omega)

lemma innerLoop_depth {E : Type} (A : Nat → List E) (d : Nat) :
    ∀ (fuel : Nat) (t : List E) (paths : List (History E)), t.length ≤ d →
      Evaluator.innerLoop (depthSubject E A d) fuel paths t
          { timeline := t, arrow := t.length } = InnerOut.outOfFuel ∨
      Evaluator.innerLoop (depthSubject E A d) fuel paths t
          { timeline := t, arrow := t.length } =
        InnerOut.broke (paths ++ pushedT A (d - t.length) t)
          (chainT A (d - t.length) t)
          { timeline := chainT A (d - t.length) t,
            arrow := (chainT A (d - t.length) t).length } := by
  intro fuel
  induction fuel with
  | zero => intro t paths _; exact Or.inl rfl
  | succ n ih =>
    intro t paths htd
    have hne : nextEvents (depthSubject E A d) t { timeline := t, arrow := t.length } =
        ((if t.length < d then A t.length else []).map
          (fun e => AppendEvent { timeline := t, arrow := t.length } e), none) := by
      simp [nextEvents, depthSubject]
    by_cases hlt : t.length < d
    · rcases hA : (A t.length).getLast? with _ | c
      · right
        have hAe : A t.length = [] := List.getLast?_eq_none_iff.mp hA
        have happly : Evaluator.applyOnce (depthSubject E A d) paths t
            { timeline := t, arrow := t.length } =
            (paths, t, { timeline := t, arrow := t.length }, some GoErr.breakSentinel) := by
          rw [Evaluator.applyOnce, hne]
          simp [hlt, hAe]
        rw [Evaluator.innerLoop, happly]
        have hd : d - t.length = (d - t.length - 1) + 1 := by omega
        rw [hd, chainT, pushedT, hA]
        simp
      · obtain ⟨init2, hAe⟩ := List.getLast?_eq_some_iff.mp hA
        have hmap : (if t.length < d then A t.length else []).map
            (fun e => AppendEvent { timeline := t, arrow := t.length } e) =
            (init2.map (fun e => AppendEvent { timeline := t, arrow := t.length } e)) ++
              [AppendEvent { timeline := t, arrow := t.length } c] := by
          rw [if_pos hlt, hAe, List.map_append, List.map_singleton]
        have hwalk : walkOnce (depthSubject E A d) t
            (AppendEvent { timeline := t, arrow := t.length } c) =
            ({ timeline := t ++ [c], arrow := t.length + 1 }, t ++ [c], none) := by
          simp [walkOnce, WalkForward, AppendEvent, depthSubject,
            List.getElem?_concat_length]
        have happly : Evaluator.applyOnce (depthSubject E A d) paths t
            { timeline := t, arrow := t.length } =
            (paths ++ ((init2.map
              (fun e => AppendEvent { timeline := t, arrow := t.length } e)).reverse),
              t ++ [c], { timeline := t ++ [c], arrow := t.length + 1 }, none) := by
          rw [Evaluator.applyOnce, hne]
          simp only [hmap]
          rw [if_neg (by simp)]
          simp only [List.getLastD_concat, List.dropLast_concat, evaluator_push_eq, hwalk]
          rw [if_neg (by simp [depthSubject])]
        have hstep : Evaluator.innerLoop (depthSubject E A d) (n + 1) paths t
            { timeline := t, arrow := t.length } =
            Evaluator.innerLoop (depthSubject E A d) n
              (paths ++ ((init2.map
                (fun e => AppendEvent { timeline := t, arrow := t.length } e)).reverse))
              (t ++ [c]) { timeline := t ++ [c], arrow := t.length + 1 } := by
          rw [Evaluator.innerLoop, happly]
        have ht1 : (t ++ [c]).length = t.length + 1 := by simp
        have hrec := ih (t ++ [c]) (paths ++ ((init2.map
          (fun e => AppendEvent { timeline := t, arrow := t.length } e)).reverse))
          (by simp; omega)
        rw [ht1] at hrec
        rcases hrec with hoof | hbroke
        · left
          rw [hstep, hoof]
        · right
          rw [hstep, hbroke]
          have hd : d - t.length = (d - (t.length + 1)) + 1 := by omega
          rw [hd, chainT, pushedT, hA]
          have hdrop : (A t.length).dropLast = init2 := by
            rw [hAe, List.dropLast_concat]
          rw [hdrop]
          simp [List.append_assoc]
    · right
      have htd2 : t.length = d := by omega
      have happly : Evaluator.applyOnce (depthSubject E A d) paths t
          { timeline := t, arrow := t.length } =
          (paths, t, { timeline := t, arrow := t.length }, some GoErr.breakSentinel) := by
        rw [Evaluator.applyOnce, hne]
        simp [hlt]
      rw [Evaluator.innerLoop, happly]
      have hd : d - t.length = 0 := by omega
      rw [hd, chainT, pushedT]
      simp

lemma pushedT_length_le {E : Type} (A : Nat → List E) :
    ∀ (n : Nat) (t : List E) (h : History E),
      h ∈ pushedT A n t → h.timeline.length ≤ t.length + n := by
  intro n
  induction n with
  | zero => intro t h hh; simp [pushedT] at hh
  | succ n ih =>
    intro t h hh
    rw [pushedT] at hh
    rcases hA : (A t.length).getLast? with _ | c
    · rw [hA] at hh; simp at hh
    · rw [hA] at hh
      rcases List.mem_append.mp hh with hh | hh
      · rw [List.mem_reverse] at hh
        obtain ⟨e, _, rfl⟩ := List.mem_map.mp hh
        simp only [AppendEvent, List.length_append, List.length_cons, List.length_nil]
        omega
      · have := ih (t ++ [c]) h hh
        simp only [List.length_append, List.length_cons, List.length_nil] at this
        omega

lemma comps_perm_chain_pushed {E : Type} (A : Nat → List E) (d : Nat)
    (hne : ∀ i, i < d → A i ≠ []) :
    ∀ (n : Nat) (t : List E), n + t.length = d →
      (comps A n t).Perm
        (chainT A n t :: (pushedT A n t).flatMap (timelineComps A d)) := by
  intro n
  induction n with
  | zero => intro t _; simp [comps, chainT, pushedT]
  | succ n ih =>
    intro t hnd
    have hlt : t.length < d := by omega
    have hAne : A t.length ≠ [] := hne t.length hlt
    obtain ⟨init2, c, hAe⟩ : ∃ L b, A t.length = L ++ [b] := by
      rcases List.eq_nil_or_concat (A t.length) with h2 | ⟨L, b, h2⟩
      · exact absurd h2 hAne
      · exact ⟨L, b, by simpa [List.concat_eq_append] using h2⟩
    have hA : (A t.length).getLast? = some c := by
      rw [hAe]; exact List.getLast?_concat _
    have hdrop : (A t.length).dropLast = init2 := by
      rw [hAe, List.dropLast_concat]
    have htc : ∀ e : E,
        timelineComps A d (AppendEvent { timeline := t, arrow := t.length } e) =
          comps A n (t ++ [e]) := by
      intro e
      simp only [timelineComps, AppendEvent, List.length_append, List.length_cons,
        List.length_nil]
      congr 1
      omega
    have hchain : chainT A (n + 1) t = chainT A n (t ++ [c]) := by
      rw [chainT, hA]
    have hpush : pushedT A (n + 1) t =
        (init2.map (fun e => AppendEvent { timeline := t, arrow := t.length } e)).reverse
          ++ pushedT A n (t ++ [c]) := by
      rw [pushedT, hA, hdrop]
    have h1 : (((init2.map
        (fun e => AppendEvent { timeline := t, arrow := t.length } e)).reverse).flatMap
          (timelineComps A d)).Perm
        (init2.flatMap (fun e => comps A n (t ++ [e]))) := by
      have hp : ((init2.map
          (fun e => AppendEvent { timeline := t, arrow := t.length } e)).reverse).Perm
          (init2.map (fun e => AppendEvent { timeline := t, arrow := t.length } e)) :=
        List.reverse_perm _
      refine (List.Perm.flatMap_right (timelineComps A d) hp).trans ?_
      rw [List.flatMap_map]
      have heq : (fun a => timelineComps A d
          (AppendEvent { timeline := t, arrow := t.length } a)) =
          (fun a => comps A n (t ++ [a])) := funext htc
      rw [heq]
    have h2 : (comps A n (t ++ [c])).Perm
        (chainT A n (t ++ [c]) :: (pushedT A n (t ++ [c])).flatMap (timelineComps A d)) :=
      ih (t ++ [c]) (by simp; omega)
    have h3 : ([c].flatMap (fun e => comps A n (t ++ [e]))) = comps A n (t ++ [c]) := by
      simp
    rw [comps, hchain, hpush, hAe, List.flatMap_append, List.flatMap_append, h3]
    exact ((List.Perm.append_left _ h2).trans List.perm_middle).trans
      (List.Perm.cons _ (List.Perm.append_right _ h1.symm))

lemma applyLoop_depth_perm {E : Type} (A : Nat → List E) (d : Nat)
    (hne : ∀ i, i < d → A i ≠ []) :
    ∀ (fuel : Nat) (paths : List (History E)) (acc out : List (Result (List E) E)),
      (∀ h ∈ paths, h.timeline.length ≤ d) →
      Evaluator.applyLoop (depthSubject E A d) (Except.ok []) fuel paths acc = some out →
      out.Perm ((paths.flatMap (timelineComps A d)).map mkRes ++ acc) := by
  intro fuel
  induction fuel with
  | zero => intro paths acc out _ hrun; simp [Evaluator.applyLoop] at hrun
  | succ n ih =>
    intro paths acc out hwf hrun
    rw [Evaluator.applyLoop] at hrun
    rcases hpop : Evaluator.pop paths with _ | ⟨top0, paths1⟩
    · simp only [hpop, Option.some.injEq] at hrun
      subst hrun
      rw [evaluator_pop_eq_none hpop]
      simp
    · have hps : paths = paths1 ++ [top0] := evaluator_pop_eq_some hpop
      have htop : top0 ∈ paths := by
        rw [hps]; exact List.mem_append_right _ (List.mem_singleton_self _)
      have htld : top0.timeline.length ≤ d := hwf top0 htop
      simp only [hpop] at hrun
      rw [align_depth A d top0] at hrun
      simp only [] at hrun
      rcases innerLoop_depth A d n top0.timeline paths1 htld with hoof | hbroke
      · rw [hoof] at hrun
        cases hrun
      · rw [hbroke] at hrun
        simp only [] at hrun
        rw [if_neg (by simp [depthSubject])] at hrun
        rcases hrec : Evaluator.applyLoop (depthSubject E A d) (Except.ok []) n
            (paths1 ++ pushedT A (d - top0.timeline.length) top0.timeline) acc
          with _ | rest
        · simp [hrec] at hrun
        · simp only [hrec, Option.some.injEq] at hrun
          subst hrun
          have hwf2 : ∀ h ∈ paths1 ++ pushedT A (d - top0.timeline.length) top0.timeline,
              h.timeline.length ≤ d := by
            intro h hh
            rcases List.mem_append.mp hh with hh | hh
            · exact hwf h (by rw [hps]; exact List.mem_append_left _ hh)
            · have := pushedT_length_le A (d - top0.timeline.length) top0.timeline h hh
              omega
          have hrest := ih _ acc rest hwf2 hrec
          have hmr : NewResult
              { timeline := chainT A (d - top0.timeline.length) top0.timeline,
                arrow := (chainT A (d - top0.timeline.length) top0.timeline).length }
              (some (chainT A (d - top0.timeline.length) top0.timeline)) none =
              mkRes (chainT A (d - top0.timeline.length) top0.timeline) := rfl
          rw [hmr]
          have hperm5 := comps_perm_chain_pushed A d hne (d - top0.timeline.length)
            top0.timeline (by omega)
          rw [List.flatMap_append] at hrest
          have hgoal2 : ((paths.flatMap (timelineComps A d)).map mkRes ++ acc).Perm
              (mkRes (chainT A (d - top0.timeline.length) top0.timeline) ::
                ((paths1.flatMap (timelineComps A d)).map mkRes ++
                  (((pushedT A (d - top0.timeline.length) top0.timeline).flatMap
                    (timelineComps A d)).map mkRes ++ acc))) := by
            rw [hps, List.flatMap_append]
            have h4 : ([top0].flatMap (timelineComps A d)) =
                comps A (d - top0.timeline.length) top0.timeline := by
              simp [timelineComps]
            rw [h4, List.map_append]
            refine (List.Perm.append_right acc
              (List.Perm.append_left _ (List.Perm.map mkRes hperm5))).trans ?_
            simp only [List.map_cons]
            rw [List.append_assoc]
            exact List.perm_middle.trans (List.Perm.cons _ (List.Perm.refl _))
          refine (List.Perm.cons _ (hrest.trans ?_)).trans hgoal2.symm
          simp [List.map_append, List.append_assoc]

lemma comps_length {E : Type} (A : Nat → List E) (k : Nat) :
    ∀ (n : Nat) (t : List E),
      (∀ i, t.length ≤ i → i < t.length + n → (A i).length = k) →
      (comps A n t).length = k ^ n := by
  intro n
  induction n with
  | zero => intro t _; simp [comps]
  | succ n ih =>
    intro t hk
    rw [comps, List.length_flatMap]
    have hlen : ∀ e ∈ A t.length, (comps A n (t ++ [e])).length = k ^ n := by
      intro e _
      refine ih (t ++ [e]) ?_
      intro i hi1 hi2
      simp only [List.length_append, List.length_cons, List.length_nil] at hi1 hi2
      exact hk i (by omega) (by omega)
    simp only [Function.comp_def]
    rw [List.map_congr_left hlen]
    have hsum : (List.map (fun _ => k ^ n) (A t.length)).sum =
        (A t.length).length * k ^ n := by
      simp [List.map_const]
    rw [hsum, hk t.length (le_refl _) (by omega), pow_succ]
    ring

lemma comps_mem_length {E : Type} (A : Nat → List E) :
    ∀ (n : Nat) (t l : List E), l ∈ comps A n t → l.length = t.length + n := by
  intro n
  induction n with
  | zero => intro t l hl; simp [comps] at hl; simp [hl]
  | succ n ih =>
    intro t l hl
    rw [comps, List.mem_flatMap] at hl
    obtain ⟨e, _, hl⟩ := hl
    have := ih (t ++ [e]) l hl
    simp only [List.length_append, List.length_cons, List.length_nil] at this
    omega

lemma comps_mem_iff {E : Type} (A : Nat → List E) :
    ∀ (n : Nat) (t l : List E),
      l ∈ comps A n t ↔ ∃ ext, l = t ++ ext ∧ ext.length = n ∧
        (∀ j, j < n → ∃ e, ext[j]? = some e ∧ e ∈ A (t.length + j)) := by
  intro n
  induction n with
  | zero =>
    intro t l
    simp only [comps, List.mem_singleton]
    constructor
    · rintro rfl
      exact ⟨[], by simp, rfl, fun j hj => absurd hj (by omega)⟩
    · rintro ⟨ext, rfl, hlen, -⟩
      rw [List.length_eq_zero] at hlen
      rw [hlen, List.append_nil]
  | succ n ih =>
    intro t l
    rw [comps, List.mem_flatMap]
    constructor
    · rintro ⟨e, he, hl⟩
      obtain ⟨ext, rfl, hlen, hmem⟩ := (ih (t ++ [e]) _).mp hl
      refine ⟨e :: ext, by simp, by simp [hlen], ?_⟩
      intro j hj
      rcases j with _ | j
      · exact ⟨e, by simp, by simpa using he⟩
      · obtain ⟨e2, h1, h2⟩ := hmem j (by omega)
        refine ⟨e2, by simpa using h1, ?_⟩
        have heq : (t ++ [e]).length + j = t.length + (j + 1) := by simp; omega
        rwa [heq] at h2
    · rintro ⟨ext, rfl, hlen, hmem⟩
      rcases ext with _ | ⟨e, ext⟩
      · simp at hlen
      · obtain ⟨e0, h1, h2⟩ := hmem 0 (by omega)
        simp only [List.getElem?_cons_zero, Option.some.injEq] at h1
        rw [← h1, Nat.add_zero] at h2
        refine ⟨e, h2, ?_⟩
        refine (ih (t ++ [e]) _).mpr ⟨ext, by simp, by simpa using hlen, ?_⟩
        intro j hj
        obtain ⟨e2, h3, h4⟩ := hmem (j + 1) (by omega)
        refine ⟨e2, by simpa using h3, ?_⟩
        have heq : t.length + (j + 1) = (t ++ [e]).length + j := by simp; omega
        rwa [heq] at h4

lemma comps_prefix_getElem {E : Type} (A : Nat → List E) (n : Nat) (t l : List E)
    (e : E) (hl : l ∈ comps A n (t ++ [e])) : l[t.length]? = some e := by
  obtain ⟨ext, rfl, -, -⟩ := (comps_mem_iff A n (t ++ [e]) _).mp hl
  rw [List.append_assoc, List.singleton_append,
    List.getElem?_append_right (le_refl _)]
  simp

lemma comps_nodup {E : Type} (A : Nat → List E) :
    ∀ (n : Nat) (t : List E),
      (∀ i, t.length ≤ i → i < t.length + n → (A i).Nodup) →
      (comps A n t).Nodup := by
  intro n
  induction n with
  | zero => intro t _; simp [comps]
  | succ n ih =>
    intro t hnd
    rw [comps]
    apply List.nodup_flatMap.mpr
    constructor
    · intro e _
      refine ih (t ++ [e]) ?_
      intro i hi1 hi2
      simp only [List.length_append, List.length_cons, List.length_nil] at hi1 hi2
      exact hnd i (by omega) (by omega)
    · have hA : (A t.length).Nodup := hnd t.length (le_refl _) (by omega)
      refine hA.imp ?_
      intro e e2 hne l hl hl2
      have h1 := comps_prefix_getElem A n t l e hl
      have h2 := comps_prefix_getElem A n t l e2 hl2
      rw [h1] at h2
      exact hne (Option.some.injEq _ _ ▸ h2)

/-- C2: for the depth-bounded subject that, at every state strictly below
depth `d`, offers exactly the `k` events of that depth's (duplicate-free)
alphabet and offers no events at depth `d`, never erroring: any completed run
of the Evaluator yields exactly `k ^ d` valid Results, each with a timeline
of length `d`, and the set of yielded timelines is exactly the Cartesian
product of the per-depth alphabets — no duplicates, no omissions. -/
theorem fixed_branching_cartesian {E : Type} (A : Nat → List E) (d k : Nat)
    (hk0 : 0 < k) (hlen : ∀ i, i < d → (A i).length = k)
    (hnd : ∀ i, i < d → (A i).Nodup) (fuel : Nat)
    (out : List (Result (List E) E))
    (hrun : Evaluator.apply { sub := depthSubject E A d, initFn := Except.ok [] } fuel =
      some out) :
    out.length = k ^ d ∧
    (∀ r ∈ out, r.Error = none ∧ r.Subject = some r.Timeline ∧ r.Timeline.length = d) ∧
    (out.map Result.Timeline).Nodup ∧
    (∀ l : List E, l ∈ out.map Result.Timeline ↔
      (l.length = d ∧ ∀ j, j < d → ∃ e, l[j]? = some e ∧ e ∈ A j)) := by
  have hne : ∀ i, i < d → A i ≠ [] := by
    intro i hi h
    have := hlen i hi
    rw [h] at this
    simp at this
    omega
  unfold Evaluator.apply at hrun
  have hwf : ∀ h ∈ Evaluator.push ([] : List (History E))
      [{ timeline := [], arrow := 0 }], h.timeline.length ≤ d := by
    intro h hh
    rw [evaluator_push_eq] at hh
    simp at hh
    subst hh
    simp
  have hperm := applyLoop_depth_perm A d hne fuel _ [] out hwf hrun
  have hflat : ((Evaluator.push ([] : List (History E))
      [{ timeline := [], arrow := 0 }]).flatMap (timelineComps A d)) = comps A d [] := by
    rw [evaluator_push_eq]
    simp [timelineComps]
  rw [hflat, List.append_nil] at hperm
  have htl : (out.map Result.Timeline).Perm (comps A d []) := by
    refine (hperm.map Result.Timeline).trans ?_
    rw [List.map_map]
    have : (Result.Timeline ∘ mkRes) = (id : List E → List E) := funext (fun _ => rfl)
    rw [this, List.map_id]
  refine ⟨?_, ?_, ?_, ?_⟩
  · rw [hperm.length_eq, List.length_map]
    exact comps_length A k d [] (by intro i h1 h2; simp at h2; exact hlen i h2)
  · intro r hr
    have := (hperm.mem_iff).mp hr
    obtain ⟨t, ht, rfl⟩ := List.mem_map.mp this
    have hl := comps_mem_length A d [] t ht
    simp only [List.length_nil, Nat.zero_add] at hl
    exact ⟨rfl, rfl, hl⟩
  · refine htl.nodup_iff.mpr ?_
    exact comps_nodup A d [] (by intro i h1 h2; simp at h2; exact hnd i h2)
  · intro l
    rw [List.Perm.mem_iff htl, comps_mem_iff A d []]
    constructor
    · rintro ⟨ext, rfl, hlen2, hmem⟩
      simp only [List.nil_append, List.length_nil] at hlen2 hmem ⊢
      refine ⟨hlen2, ?_⟩
      intro j hj
      obtain ⟨e, h1, h2⟩ := hmem j (by omega)
      exact ⟨e, h1, by simpa using h2⟩
    · rintro ⟨hlen2, hmem⟩
      refine ⟨l, by simp, hlen2, ?_⟩
      intro j hj
      obtain ⟨e, h1, h2⟩ := hmem j (by omega)
      exact ⟨e, h1, by simpa using h2⟩

/-- The four Results of a run on the depth-2, alphabet-`{0, 1}` subject. -/
def cart22Out : List (Result (List Nat) Nat) :=
  [{ Timeline := [1, 1], Subject := some [1, 1], Error := none },
   { Timeline := [1, 0], Subject := some [1, 0], Error := none },
   { Timeline := [0, 1], Subject := some [0, 1], Error := none },
   { Timeline := [0, 0], Subject := some [0, 0], Error := none }]

/-- Witness for C2 at `d = 2`, `k = 2`, alphabet `{0, 1}`. -/
theorem fixed_branching_cartesian_witness :
    cart22Out.length = 2 ^ 2 ∧
    (∀ r ∈ cart22Out, r.Error = none ∧ r.Subject = some r.Timeline ∧
      r.Timeline.length = 2) ∧
    (cart22Out.map Result.Timeline).Nodup ∧
    (∀ l : List Nat, l ∈ cart22Out.map Result.Timeline ↔
      (l.length = 2 ∧ ∀ j, j < 2 → ∃ e, l[j]? = some e ∧ e ∈ [0, 1])) :=
  fixed_branching_cartesian (fun _ => [0, 1]) 2 2 (by decide)
    (fun _ _ => rfl) (fun _ _ => by show ([0, 1] : List Nat).Nodup; decide)
    20 cart22Out (by decide)
